import Mathlib

/-!
Shallow embedding of the go-bashly core (command tree model, argument
resolver, validator, tree builder) and verification of spec claims.

Go source files embedded here:
  - internal/commandmodel/tree.go   (Command, Flag, Arg, EnvVar, builder)
  - the runtime package: ParseArgs / resolveCommandPath / findChild /
    parseFlagsAndArgs / ValidateParsed / contains
Go maps (map[string]string) are modelled as association lists with
overwrite-on-insert and lookup defaulting to "" (the Go zero value).
Go's byte-based string primitives (strings.HasPrefix, strings.Contains,
strings.SplitN, len) are modelled over the character list of the string,
which agrees with the byte-based versions on valid UTF-8 input; byte
lengths use String.utf8ByteSize. strings.Join is joinStrings; Go loops
with early return are modelled with List.find?.
-/

namespace GoBashly

/-- Go strings.HasPrefix(s, pre). -/
def strStarts (s pre : String) : Bool :=
  pre.toList.isPrefixOf s.toList

/-- Go strings.HasSuffix(s, suf). -/
def strEnds (s suf : String) : Bool :=
  suf.toList.isSuffixOf s.toList

/-- Go strings.Contains(s, "=") for the single character eq. -/
def charIn (s : String) (c : Char) : Bool :=
  s.toList.any (fun a => a == c)

/-- Go strings.Join(parts, sep). -/
def joinStrings (sep : String) : List String → String
  | [] => ""
  | [x] => x
  | x :: rest => x ++ sep ++ joinStrings sep rest

/-- Helper contains(slice, item) from the runtime package. -/
def contains (slice : List String) (item : String) : Bool :=
  slice.any (fun s => s == item)

/-- Flag declaration (tree.go). The Go field Private is named priv here
(private is a Lean keyword). -/
structure Flag where
  long : String
  short : String
  required : Bool
  allowed : List String
  priv : Bool

/-- Arg declaration (tree.go). -/
structure Arg where
  name : String
  required : Bool

/-- EnvVar declaration (tree.go). -/
structure EnvVar where
  name : String
  priv : Bool

/-- Command node (tree.go). Recursive through the commands field, so it is
an inductive; field accessors are defined below. The Go field Alias is
named aliasList (alias is reserved in Lean). -/
inductive Command where
  | mk (name : String) (parents : List String) (fullName : String)
       (actionName : String) (priv : Bool) (expose : String)
       (aliasList : List String) (filename : String) (description : String)
       (args : List Arg) (flags : List Flag) (envVars : List EnvVar)
       (commands : List Command)

def Command.name : Command → String
  | .mk n _ _ _ _ _ _ _ _ _ _ _ _ => n

def Command.parents : Command → List String
  | .mk _ p _ _ _ _ _ _ _ _ _ _ _ => p

def Command.fullName : Command → String
  | .mk _ _ f _ _ _ _ _ _ _ _ _ _ => f

def Command.actionName : Command → String
  | .mk _ _ _ a _ _ _ _ _ _ _ _ _ => a

def Command.priv : Command → Bool
  | .mk _ _ _ _ pv _ _ _ _ _ _ _ _ => pv

def Command.expose : Command → String
  | .mk _ _ _ _ _ e _ _ _ _ _ _ _ => e

def Command.aliasList : Command → List String
  | .mk _ _ _ _ _ _ al _ _ _ _ _ _ => al

def Command.filename : Command → String
  | .mk _ _ _ _ _ _ _ fi _ _ _ _ _ => fi

def Command.description : Command → String
  | .mk _ _ _ _ _ _ _ _ d _ _ _ _ => d

def Command.args : Command → List Arg
  | .mk _ _ _ _ _ _ _ _ _ ar _ _ _ => ar

def Command.flags : Command → List Flag
  | .mk _ _ _ _ _ _ _ _ _ _ fl _ _ => fl

def Command.envVars : Command → List EnvVar
  | .mk _ _ _ _ _ _ _ _ _ _ _ ev _ => ev

def Command.commands : Command → List Command
  | .mk _ _ _ _ _ _ _ _ _ _ _ _ cs => cs

/-- Replace the commands field (used by the builder to attach children). -/
def Command.withCommands : Command → List Command → Command
  | .mk n p f a pv e al fi d ar fl ev _, cs => .mk n p f a pv e al fi d ar fl ev cs

/-- Settings: only the two fields read by the embedded functions
(PartialsExtension, CommandsDir); the Go struct carries further fields
that the modelled code never touches. -/
structure Settings where
  partialsExtension : String
  commandsDir : String

/-- ParsedArgs (runtime package). The Go field Command is a possibly-nil
pointer, hence Option. The Go map[string]string Flags is an association
list, see lookupFlag / setFlag. -/
structure ParsedArgs where
  command : Option Command
  flags : List (String × String)
  positional : List String
  remaining : List String
  helpAsked : Bool

/-- Go map read m[k]: the zero value "" when the key is absent. -/
def lookupFlag (m : List (String × String)) (k : String) : String :=
  match m.find? (fun p => p.1 == k) with
  | some p => p.2
  | none => ""

/-- Go map write m[k] = v: overwrite in place, or append a new key. -/
def setFlag (m : List (String × String)) (k v : String) : List (String × String) :=
  if m.any (fun p => p.1 == k) then
    m.map (fun p => if p.1 == k then (k, v) else p)
  else
    m ++ [(k, v)]

/-- Go strings.TrimSuffix(s, suffix) for the one-character suffix star. -/
def trimStarSuffix (s : String) : String :=
  if strEnds s "*" then String.mk s.toList.dropLast else s

/-- findChild (runtime): first child whose name equals the token or whose
alias list matches it. The Go code returns from inside a double loop on the
first match; equivalently the first child satisfying the combined test. -/
def findChild (parent : Command) (name : String) : Option Command :=
  parent.commands.find? (fun child =>
    child.name == name ||
    child.aliasList.any (fun a =>
      if strStarts a "*" then
        strStarts name (trimStarSuffix a)
      else
        a == name))

/-- resolveCommandPath (runtime): walk the tree consuming tokens while a
child matches; the current node and leftover tokens are returned. -/
def resolveCommandPath (current : Command) (argv : List String) : Command × List String :=
  match argv with
  | [] => (current, [])
  | tok :: rest =>
    match findChild current tok with
    | some next => resolveCommandPath next rest
    | none => (current, tok :: rest)

/-- Split a character list on the first eq character (helper for
strings.SplitN(s, sep, 2)). -/
def breakOnEq : List Char → List Char × List Char
  | [] => ([], [])
  | c :: rest =>
    if c == '=' then ([], rest)
    else
      let r := breakOnEq rest
      (c :: r.1, r.2)

/-- Go strings.SplitN(s, sep, 2) for the eq separator: the part before the
first eq and everything after it (only reached when s contains an eq). -/
def splitOnceEq (s : String) : String × String :=
  (String.mk (breakOnEq s.toList).1, String.mk (breakOnEq s.toList).2)

/-- Compact short-flag cluster expansion: for each character after the
leading dash, set the one-character flag to "true" (order of the Go range
over arg[1:]). -/
def expandCompact (flags : List (String × String)) (arg : String) : List (String × String) :=
  (arg.toList.drop 1).foldl (fun m ch => setFlag m (String.mk ['-', ch]) "true") flags

/-- parseFlagsAndArgs (runtime): left-to-right tokenization of the
remaining args into flags and positionals. Go iterates with an index and
skips a consumed value token; here the consumed token is dropped from the
recursion. Byte length len(arg) is String.utf8ByteSize. -/
def parseFlagsAndArgs (flags : List (String × String)) (positional : List String)
    (args : List String) : List (String × String) × List String :=
  match args with
  | [] => (flags, positional)
  | arg :: rest =>
    if strStarts arg "--" then
      if charIn arg '=' then
        parseFlagsAndArgs (setFlag flags (splitOnceEq arg).1 (splitOnceEq arg).2) positional rest
      else
        match rest with
        | next :: rest2 =>
          if strStarts next "-" then
            parseFlagsAndArgs (setFlag flags arg "true") positional (next :: rest2)
          else
            parseFlagsAndArgs (setFlag flags arg next) positional rest2
        | [] => parseFlagsAndArgs (setFlag flags arg "true") positional []
    else if strStarts arg "-" && arg.utf8ByteSize > 1 then
      if arg.utf8ByteSize == 2 then
        match rest with
        | next :: rest2 =>
          if strStarts next "-" then
            parseFlagsAndArgs (setFlag flags arg "true") positional (next :: rest2)
          else
            parseFlagsAndArgs (setFlag flags arg next) positional rest2
        | [] => parseFlagsAndArgs (setFlag flags arg "true") positional []
      else
        parseFlagsAndArgs (expandCompact flags arg) positional rest
    else
      parseFlagsAndArgs flags (positional ++ [arg]) rest

/-- ParseArgs (runtime): global help detection, command-path resolution,
then flag/positional tokenization. A nil root reaching step 2 yields the
"unknown command" error in Go when argv is exhausted (with tokens left Go
would dereference the nil pointer; the embedding reports the same error). -/
def ParseArgs (argv : List String) (root : Option Command) (st : Settings) :
    Except String ParsedArgs :=
  if contains argv "--help" || contains argv "-h" then
    Except.ok { command := root, flags := [], positional := [], remaining := [],
                helpAsked := true }
  else
    match root with
    | none => Except.error "unknown command"
    | some r =>
      let res := resolveCommandPath r argv
      let parsed := parseFlagsAndArgs [] [] res.2
      Except.ok { command := some res.1, flags := parsed.1, positional := parsed.2,
                  remaining := res.2, helpAsked := false }

/-- ValidateResult (runtime). -/
structure ValidateResult where
  valid : Bool
  errorMsg : String
  exitCode : Int
deriving DecidableEq

/-- The flag value read by the validator: the long key first, then the
short key when the long lookup was empty. -/
def flagValue (parsed : ParsedArgs) (f : Flag) : String :=
  let v := lookupFlag parsed.flags f.long
  if v == "" then lookupFlag parsed.flags f.short else v

/-- The flag name used in validator messages: long, or short when long is
empty. -/
def flagDisplayName (f : Flag) : String :=
  if f.long == "" then f.short else f.long

/-- ValidateParsed (runtime): three ordered checks - required args,
required flags, allowed values - each Go loop returning on the first
offending declaration, modelled with List.find?. -/
def ValidateParsed (cmd : Command) (parsed : ParsedArgs) : ValidateResult :=
  match cmd.args.find? (fun a => a.required && !(contains parsed.positional a.name)) with
  | some a => { valid := false, errorMsg := "missing required argument: " ++ a.name, exitCode := 2 }
  | none =>
  match cmd.flags.find? (fun f => f.required && flagValue parsed f == "") with
  | some f => { valid := false, errorMsg := "missing required flag: " ++ flagDisplayName f, exitCode := 2 }
  | none =>
  match cmd.flags.find? (fun f =>
      flagValue parsed f != "" && !f.allowed.isEmpty && !(contains f.allowed (flagValue parsed f))) with
  | some f => { valid := false,
                errorMsg := "invalid value for " ++ flagDisplayName f ++ ": " ++ flagValue parsed f,
                exitCode := 2 }
  | none => { valid := true, errorMsg := "", exitCode := 0 }

/-! ### Configuration values and the tree builder (tree.go) -/

/-- Generic configuration value: the shapes a YAML loader hands to the Go
builder through the empty interface (maps, lists, strings, booleans, and
null). Scalar kinds other than string and boolean (numbers, etc.) behave
exactly like null for every embedded function - the type assertions in the
Go code fail on them - so null stands for all of them. -/
inductive CVal where
  | str (s : String)
  | boolVal (b : Bool)
  | list (xs : List CVal)
  | cmap (m : List (String × CVal))
  | null

/-- Go map lookup m[k] on a configuration mapping: first binding wins
(YAML maps have unique keys); none models an absent key (Go nil). -/
def getKey : List (String × CVal) → String → Option CVal
  | [], _ => none
  | (k2, v) :: rest, k => if k2 == k then some v else getKey rest k

theorem getKey_sizeOf_lt {m : List (String × CVal)} {k : String} {v : CVal}
    (h : getKey m k = some v) : sizeOf v < sizeOf m := by
  induction m with
  | nil => simp [getKey] at h
  | cons x xs ih =>
    match x with
    | (k2, v2) =>
      simp only [getKey] at h
      split at h
      · cases h
        simp
        omega
      · have := ih h
        simp
        omega

/-- asString (tree.go): the string value and whether the assertion held;
the zero value pair on anything else (including an absent key). -/
def asString : Option CVal → String × Bool
  | some (CVal.str s) => (s, true)
  | _ => ("", false)

/-- asBool (tree.go): the boolean value and whether the assertion held. -/
def asBool : Option CVal → Bool × Bool
  | some (CVal.boolVal b) => (b, true)
  | _ => (false, false)

/-- Loop body of parseArgs (tree.go): skip entries that are not mappings
and entries whose name is absent or empty. -/
def parseArgsList : List CVal → List Arg
  | [] => []
  | raw :: rest =>
    match raw with
    | CVal.cmap m =>
      let name := (asString (getKey m "name")).1
      if name == "" then parseArgsList rest
      else ⟨name, (asBool (getKey m "required")).1⟩ :: parseArgsList rest
    | _ => parseArgsList rest

/-- parseArgs (tree.go): a non-list value yields no declarations. -/
def parseArgs : Option CVal → List Arg
  | some (CVal.list l) => parseArgsList l
  | _ => []

/-- Loop body of parseFlags (tree.go): skip entries that are not mappings;
a mapping entry always yields a flag (fields default to zero values). -/
def parseFlagsList : List CVal → List Flag
  | [] => []
  | raw :: rest =>
    match raw with
    | CVal.cmap m =>
      let allowed : List String :=
        match getKey m "allowed" with
        | some (CVal.list arr) =>
          arr.filterMap (fun a => match a with | CVal.str s => some s | _ => none)
        | _ => []
      { long := (asString (getKey m "long")).1, short := (asString (getKey m "short")).1,
        required := (asBool (getKey m "required")).1, allowed := allowed,
        priv := (asBool (getKey m "private")).1 } :: parseFlagsList rest
    | _ => parseFlagsList rest

/-- parseFlags (tree.go): a non-list value yields no declarations. -/
def parseFlags : Option CVal → List Flag
  | some (CVal.list l) => parseFlagsList l
  | _ => []

/-- Loop body of parseEnvVars (tree.go): skip non-mapping entries and
entries whose name is absent or empty. -/
def parseEnvVarsList : List CVal → List EnvVar
  | [] => []
  | raw :: rest =>
    match raw with
    | CVal.cmap m =>
      let name := (asString (getKey m "name")).1
      if name == "" then parseEnvVarsList rest
      else ⟨name, (asBool (getKey m "private")).1⟩ :: parseEnvVarsList rest
    | _ => parseEnvVarsList rest

/-- parseEnvVars (tree.go): a non-list value yields no declarations. -/
def parseEnvVars : Option CVal → List EnvVar
  | some (CVal.list l) => parseEnvVarsList l
  | _ => []

/-- normalizeAlias (tree.go): the declared alias value (absent, a single
string, or a list of strings with non-string or empty entries dropped)
prefixed with the command name itself. -/
def normalizeAlias (v : Option CVal) (name : String) : List String :=
  let alts : List String :=
    match v with
    | some (CVal.str t) => if t != "" then [t] else []
    | some (CVal.list l) =>
      l.filterMap (fun a => match a with
        | CVal.str s => if s != "" then some s else none
        | _ => none)
    | _ => []
  name :: alts

/-- computeActionName (tree.go): root for an empty chain, the bare name for
a direct child of root, else the chain minus its first element plus the
name, joined by spaces. -/
def computeActionName (parents : List String) (name : String) : String :=
  match parents with
  | [] => "root"
  | [_] => name
  | _ => joinStrings " " (parents.drop 1 ++ [name])

/-- Go strings.ReplaceAll(s, old, new) for one-character old and new (the
only shapes the builder uses). -/
def charReplace (s : String) (a b : Char) : String :=
  String.mk (s.toList.map (fun c => if c == a then b else c))

/-- Go strings.TrimSpace restricted to ASCII whitespace (the builder only
trims action names built from config tokens). -/
def isSpaceChar (c : Char) : Bool :=
  c == ' ' || c == '\t' || c == '\n' || c == '\r'

def trimSpaceAscii (s : String) : String :=
  String.mk (((s.toList.dropWhile isSpaceChar).reverse.dropWhile isSpaceChar).reverse)

/-- Go strings.ToLower on ASCII letters. -/
def toLowerAscii (s : String) : String :=
  String.mk (s.toList.map Char.toLower)

/-- underscore (tree.go): trim, dashes and slashes to underscores, lower
case. -/
def underscore (s : String) : String :=
  toLowerAscii (charReplace (charReplace (trimSpaceAscii s) '-' '_') '/' '_')

/-- Go filepath.Join of two non-trivial segments (the builder joins a
non-empty commands dir with a relative partial path; the path-cleaning
filepath.Join also performs does not arise for these inputs). -/
def joinPath (a b : String) : String :=
  if a == "" then b else a ++ "/" ++ b

/-- resolveFilename (tree.go): an explicit non-empty filename wins; with a
commands dir the action name becomes a slash path under it; otherwise a
flattened underscore name suffixed with the command partial suffix.
filepath.FromSlash is the identity on slash paths. -/
def resolveFilename (opts : List (String × CVal)) (parents : List String) (name : String)
    (st : Settings) : String :=
  let fn := asString (getKey opts "filename")
  if fn.2 && fn.1 != "" then fn.1
  else
    let action := computeActionName parents name
    let ext := if st.partialsExtension == "" then "sh" else st.partialsExtension
    if st.commandsDir != "" then
      joinPath st.commandsDir (charReplace action ' ' '/' ++ "." ++ ext)
    else
      underscore (charReplace action ' ' '_') ++ "_command." ++ ext

/-!
buildChildren loop body (tree.go), one function per layer so that the
recursion is structural: buildEntries walks the entry list carrying the
loop index i used in error messages, buildEntry builds one child entry,
and buildSubCommands performs the Go lookup opts["commands"] followed by
the recursive build (theorem buildSubCommands_eq_getKey shows it equals
that lookup). Each entry must be a mapping with a non-empty name; a nested
commands value must be a list; any error aborts the whole build.
-/
/-- The child Command a mapping entry yields before its nested commands
are attached (the cmd literal built in the Go buildChildren loop). -/
def childCommand (opts : List (String × CVal)) (parent : Command) (st : Settings) : Command :=
  let name := (asString (getKey opts "name")).1
  let parents := parent.parents ++ [parent.name]
  Command.mk name parents (joinStrings " " (parents ++ [name]))
    (computeActionName parents name)
    (asBool (getKey opts "private")).1
    (asString (getKey opts "expose")).1
    (normalizeAlias (getKey opts "alias") name)
    (resolveFilename opts parents name st)
    (asString (getKey opts "description")).1
    (parseArgs (getKey opts "args"))
    (parseFlags (getKey opts "flags"))
    (parseEnvVars (getKey opts "environment_variables"))
    []

mutual

def buildEntries (i : Nat) (l : List CVal) (parent : Command) (st : Settings) :
    Except String (List Command) :=
  match l with
  | [] => Except.ok []
  | raw :: rest =>
    match buildEntry i raw parent st with
    | Except.error e => Except.error e
    | Except.ok cmd =>
      match buildEntries (i + 1) rest parent st with
      | Except.ok out => Except.ok (cmd :: out)
      | Except.error e => Except.error e
termination_by structural l

def buildEntry (i : Nat) (raw : CVal) (parent : Command) (st : Settings) :
    Except String Command :=
  match raw with
  | CVal.cmap opts =>
    if (asString (getKey opts "name")).1 == "" then
      Except.error ("commands[" ++ toString i ++ "].name is required")
    else
      let cmd0 := childCommand opts parent st
      match buildSubCommands opts cmd0.fullName cmd0 st with
      | Except.error e => Except.error e
      | Except.ok none => Except.ok cmd0
      | Except.ok (some children) => Except.ok (cmd0.withCommands children)
  | _ => Except.error ("commands[" ++ toString i ++ "] must be a mapping")
termination_by structural raw

def buildSubCommands (opts : List (String × CVal)) (fullName : String) (cmd0 : Command)
    (st : Settings) : Except String (Option (List Command)) :=
  match opts with
  | [] => Except.ok none
  | (k, v) :: rest =>
    if k == "commands" then
      match v with
      | CVal.list sub =>
        match buildEntries 0 sub cmd0 st with
        | Except.ok children => Except.ok (some children)
        | Except.error e => Except.error e
      | _ => Except.error (fullName ++ ".commands must be a list")
    else buildSubCommands rest fullName cmd0 st
termination_by structural opts

end

/-- buildSubCommands is exactly the Go sequence: look up the commands key,
return nothing when absent, recurse when it is a list, error otherwise. -/
theorem buildSubCommands_eq_getKey (opts : List (String × CVal)) (fullName : String)
    (cmd0 : Command) (st : Settings) :
    buildSubCommands opts fullName cmd0 st =
      (match getKey opts "commands" with
       | none => Except.ok none
       | some (CVal.list sub) =>
         match buildEntries 0 sub cmd0 st with
         | Except.ok children => Except.ok (some children)
         | Except.error e => Except.error e
       | some _ => Except.error (fullName ++ ".commands must be a list")) := by
  induction opts with
  | nil => rfl
  | cons x rest ih =>
    match x with
    | (k, v) =>
      by_cases hk : (k == "commands") = true
      · have hk2 : k = "commands" := by simpa using hk
        subst hk2
        cases v <;> rfl
      · simp only [Bool.not_eq_true] at hk
        cases v <;>
          simp only [buildSubCommands, getKey, hk, Bool.false_eq_true, if_false, ih]

/-- buildChildren (tree.go): the loop over a commands list starts at
index 0. -/
def buildChildren (l : List CVal) (parent : Command) (st : Settings) :
    Except String (List Command) :=
  buildEntries 0 l parent st

/-- The root Command before its children are attached (tree.go,
BuildFromConfigMap): root name defaults to root, the root action name is
the literal root, the root partial filename depends on the commands dir,
no alias list (the Go code leaves root.Alias nil), declarations parsed
leniently. -/
def rootCommand (cfg : List (String × CVal)) (st : Settings) : Command :=
  let name0 := (asString (getKey cfg "name")).1
  let name := if name0 == "" then "root" else name0
  let ext := if st.partialsExtension == "" then "sh" else st.partialsExtension
  let filename :=
    if st.commandsDir != "" then joinPath st.commandsDir ("root." ++ ext)
    else "root_command." ++ ext
  Command.mk name [] name "root" false "" [] filename
    (asString (getKey cfg "description")).1
    (parseArgs (getKey cfg "args"))
    (parseFlags (getKey cfg "flags"))
    (parseEnvVars (getKey cfg "environment_variables"))
    []

/-- BuildFromConfigMap (tree.go): build the root, then a present commands
key must be a list whose entries build the children; any error aborts and
no tree is returned. -/
def BuildFromConfigMap (cfg : List (String × CVal)) (st : Settings) : Except String Command :=
  match getKey cfg "commands" with
  | none => Except.ok (rootCommand cfg st)
  | some (CVal.list l) =>
    match buildChildren l (rootCommand cfg st) st with
    | Except.ok children => Except.ok ((rootCommand cfg st).withCommands children)
    | Except.error e => Except.error e
  | some _ => Except.error "config.commands must be a list"

/-- Definitional unfolding of BuildFromConfigMap. -/
theorem BuildFromConfigMap_eq (cfg : List (String × CVal)) (st : Settings) :
    BuildFromConfigMap cfg st =
      (match getKey cfg "commands" with
       | none => Except.ok (rootCommand cfg st)
       | some (CVal.list l) =>
         match buildChildren l (rootCommand cfg st) st with
         | Except.ok children => Except.ok ((rootCommand cfg st).withCommands children)
         | Except.error e => Except.error e
       | some _ => Except.error "config.commands must be a list") := rfl

/-! ### Basic lemmas about the helpers -/

theorem contains_of_mem {l : List String} {s : String} (h : s ∈ l) : contains l s = true := by
  simp only [contains, List.any_eq_true]
  exact ⟨s, h, by simp⟩

theorem contains_eq_false_of_not_mem {l : List String} {s : String} (h : s ∉ l) :
    contains l s = false := by
  simp only [contains, List.any_eq_false]
  intro a ha
  simp only [beq_iff_eq]
  intro heq
  exact h (heq ▸ ha)

theorem find?_congr {α : Type} (p q : α → Bool) (l : List α) (h : ∀ a ∈ l, p a = q a) :
    l.find? p = l.find? q := by
  induction l with
  | nil => rfl
  | cons x xs ih =>
    have hx := h x (List.mem_cons_self x xs)
    simp only [List.find?]
    rw [hx]
    cases q x
    · exact ih (fun a ha => h a (List.mem_cons_of_mem _ ha))
    · rfl

theorem lookupFlag_nil (k2 : String) : lookupFlag [] k2 = "" := rfl

theorem lookupFlag_cons (x : String × String) (xs : List (String × String)) (k2 : String) :
    lookupFlag (x :: xs) k2 = if x.1 = k2 then x.2 else lookupFlag xs k2 := by
  by_cases h : x.1 = k2
  · simp [lookupFlag, List.find?, h]
  · have hb : (x.1 == k2) = false := by simpa [beq_eq_false_iff_ne] using h
    simp [lookupFlag, List.find?, hb, h]

theorem lookupFlag_append_new (m : List (String × String)) (k v k2 : String)
    (hmem : m.any (fun p => p.1 == k) = false) :
    lookupFlag (m ++ [(k, v)]) k2 = if k2 = k then v else lookupFlag m k2 := by
  induction m with
  | nil =>
    by_cases h : k2 = k
    · simp [lookupFlag_cons, h]
    · have : k ≠ k2 := fun he => h he.symm
      simp [lookupFlag_cons, lookupFlag_nil, this, h]
  | cons x xs ih =>
    simp only [List.any_cons, Bool.or_eq_false_iff] at hmem
    have hx : x.1 ≠ k := by simpa [beq_eq_false_iff_ne] using hmem.1
    have ih2 := ih hmem.2
    by_cases hx2 : x.1 = k2
    · have hk2 : k2 ≠ k := fun he => hx (hx2.trans he)
      simp [List.cons_append, lookupFlag_cons, hx2, hk2]
    · simp [List.cons_append, lookupFlag_cons, hx2, ih2]

theorem lookupFlag_overwrite (m : List (String × String)) (k v k2 : String) :
    lookupFlag (m.map (fun p => if p.1 == k then (k, v) else p)) k2 =
      if k2 = k ∧ m.any (fun p => p.1 == k) = true then v else lookupFlag m k2 := by
  induction m with
  | nil => simp [lookupFlag_nil]
  | cons x xs ih =>
    simp only [List.map_cons]
    by_cases hx : x.1 = k
    · have hxb : (x.1 == k) = true := by simpa using hx
      have hhead : (if (x.1 == k) = true then (k, v) else x) = (k, v) := if_pos hxb
      by_cases hk2 : k2 = k
      · rw [hhead, lookupFlag_cons]
        simp [hk2, List.any_cons, hxb]
      · have hkk2 : ¬k = k2 := fun he => hk2 he.symm
        have hxk2 : ¬x.1 = k2 := fun he => hkk2 (hx ▸ he)
        rw [hhead, lookupFlag_cons, ih, lookupFlag_cons]
        simp [hkk2, hxk2, hk2]
    · have hxb : (x.1 == k) = false := by simpa [beq_eq_false_iff_ne] using hx
      have hhead : (if (x.1 == k) = true then (k, v) else x) = x :=
        if_neg (by simp [hxb])
      by_cases hx2 : x.1 = k2
      · have hcond : ¬(k2 = k ∧ (x.1 == k || xs.any fun p => p.1 == k) = true) := by
          rintro ⟨he, _⟩
          exact hx (hx2.trans he)
        rw [hhead, lookupFlag_cons, lookupFlag_cons]
        simp only [List.any_cons, if_pos hx2]
        rw [if_neg hcond]
      · rw [hhead, lookupFlag_cons, ih, lookupFlag_cons]
        simp only [List.any_cons, hxb, Bool.false_or, hx2, if_false]

theorem lookupFlag_setFlag (m : List (String × String)) (k v k2 : String) :
    lookupFlag (setFlag m k v) k2 = if k2 = k then v else lookupFlag m k2 := by
  unfold setFlag
  by_cases hmem : m.any (fun p => p.1 == k) = true
  · simp only [hmem, if_true]
    rw [lookupFlag_overwrite]
    simp [hmem]
  · have hmem2 : m.any (fun p => p.1 == k) = false := by
      cases h : m.any (fun p => p.1 == k)
      · rfl
      · exact absurd h hmem
    simp only [hmem, if_false]
    exact lookupFlag_append_new m k v k2 hmem2

/-- ValidateParsed reads the parsed value only through positional and the
lookupFlag view of the flag map. -/
theorem validateParsed_congr (cmd : Command) (p1 p2 : ParsedArgs)
    (hpos : p1.positional = p2.positional)
    (hflags : ∀ k, lookupFlag p1.flags k = lookupFlag p2.flags k) :
    ValidateParsed cmd p1 = ValidateParsed cmd p2 := by
  have hv : ∀ f, flagValue p1 f = flagValue p2 f := by
    intro f
    simp only [flagValue, hflags]
  unfold ValidateParsed
  rw [hpos]
  have h2 : cmd.flags.find? (fun f => f.required && flagValue p1 f == "") =
      cmd.flags.find? (fun f => f.required && flagValue p2 f == "") := by
    apply find?_congr
    intro f _
    rw [hv]
  have h3 : cmd.flags.find? (fun f =>
        flagValue p1 f != "" && !f.allowed.isEmpty && !(contains f.allowed (flagValue p1 f))) =
      cmd.flags.find? (fun f =>
        flagValue p2 f != "" && !f.allowed.isEmpty && !(contains f.allowed (flagValue p2 f))) := by
    apply find?_congr
    intro f _
    rw [hv]
  rw [h2, h3]
  cases cmd.args.find? (fun a => a.required && !(contains p2.positional a.name)) with
  | none =>
    cases cmd.flags.find? (fun f => f.required && flagValue p2 f == "") with
    | none =>
      cases cmd.flags.find? (fun f =>
          flagValue p2 f != "" && !f.allowed.isEmpty && !(contains f.allowed (flagValue p2 f))) with
      | none => simp [hv]
      | some f => simp [hv]
    | some f => rfl
  | some a => rfl

/-! ### Fixtures for the concrete scenarios -/

/-- Child command named full with the alias list of the wildcard scenario. -/
def fullChild : Command :=
  Command.mk "full" ["cli"] "cli full" "full" false "" ["full", "f*"] "" "" [] [] [] []

/-- Parent holding the wildcard-aliased child. -/
def wildcardParent : Command :=
  Command.mk "cli" [] "cli" "root" false "" [] "" "" [] [] [] [fullChild]

/-- Required flag out with the allowed set of the validation scenario. -/
def outFlag : Flag := ⟨"--out", "", true, ["a", "b"], false⟩

/-- Command requiring argument src and the out flag. -/
def srcOutCmd : Command :=
  Command.mk "deploy" [] "deploy" "deploy" false "" ["deploy"] "" "" [⟨"src", true⟩] [outFlag] [] []

/-- Required flag with both a long and a short form. -/
def outFlagShort : Flag := ⟨"--out", "-o", true, ["a", "b"], false⟩

/-- Command with only the long-and-short required flag. -/
def shortFlagCmd : Command :=
  Command.mk "pack" [] "pack" "pack" false "" ["pack"] "" "" [] [outFlagShort] [] []

/-- A ParsedArgs value as consumed by the validator. -/
def mkParsed (flags : List (String × String)) (pos : List String) : ParsedArgs :=
  { command := none, flags := flags, positional := pos, remaining := [], helpAsked := false }

/-! ### Claim theorems -/

/-- C1: the claim states that a child with alias list ["full", "f*"] matches
the token "foo" via the wildcard prefix rule. The code checks
strings.HasPrefix(alias, "*") instead of HasSuffix, so the trailing-star
alias "f*" never fires: findChild returns no child for "foo", while the
token "full" still matches by direct name. -/
theorem claim1_wildcard_alias_code_divergence :
    findChild wildcardParent "foo" = none ∧
    findChild wildcardParent "full" = some fullChild := by
  constructor
  · rfl
  · rfl

/-- C2: the validator performs required-arguments, required-flags and
allowed-values checks in that fixed order, stopping at the first failure
with exit code 2; the four concrete scenarios of the claim. -/
theorem claim2_validation_order :
    ValidateParsed srcOutCmd (mkParsed [] []) =
      { valid := false, errorMsg := "missing required argument: src", exitCode := 2 } ∧
    ValidateParsed srcOutCmd (mkParsed [] ["src"]) =
      { valid := false, errorMsg := "missing required flag: --out", exitCode := 2 } ∧
    ValidateParsed srcOutCmd (mkParsed [("--out", "c")] ["src"]) =
      { valid := false, errorMsg := "invalid value for --out: c", exitCode := 2 } ∧
    ValidateParsed srcOutCmd (mkParsed [("--out", "a")] ["src"]) =
      { valid := true, errorMsg := "", exitCode := 0 } := by
  refine ⟨by decide, by decide, by decide, by decide⟩

/-- C3: whenever the raw vector contains the help long or short token at any
position, resolution short-circuits: helpAsked is true, the command is the
root that was passed in, and the flag map and positional list stay empty. -/
theorem claim3_help_short_circuit (argv : List String) (root : Option Command) (st : Settings)
    (h : "--help" ∈ argv ∨ "-h" ∈ argv) :
    ParseArgs argv root st =
      Except.ok { command := root, flags := [], positional := [], remaining := [],
                  helpAsked := true } := by
  unfold ParseArgs
  rcases h with h | h <;> simp [contains_of_mem h]

theorem claim3_help_short_circuit_witness :
    ParseArgs ["deploy", "--help", "x"] (some srcOutCmd) ⟨"", ""⟩ =
      Except.ok { command := some srcOutCmd, flags := [], positional := [], remaining := [],
                  helpAsked := true } :=
  claim3_help_short_circuit ["deploy", "--help", "x"] (some srcOutCmd) ⟨"", ""⟩
    (Or.inl (by decide))

/-- C4: long-flag tokenization. A token starting with a double dash that
contains an eq sign is split once on the first eq sign; without one, the
following token is consumed as the value exactly when it exists and does not
start with a dash, and otherwise the value is the literal "true"; plus the
three concrete instances of the claim. -/
theorem claim4_long_flag_tokenization :
    (∀ flags pos arg rest, strStarts arg "--" = true → charIn arg '=' = true →
      parseFlagsAndArgs flags pos (arg :: rest) =
        parseFlagsAndArgs (setFlag flags (splitOnceEq arg).1 (splitOnceEq arg).2) pos rest) ∧
    (∀ flags pos arg next rest, strStarts arg "--" = true → charIn arg '=' = false →
      strStarts next "-" = false →
      parseFlagsAndArgs flags pos (arg :: next :: rest) =
        parseFlagsAndArgs (setFlag flags arg next) pos rest) ∧
    (∀ flags pos arg next rest, strStarts arg "--" = true → charIn arg '=' = false →
      strStarts next "-" = true →
      parseFlagsAndArgs flags pos (arg :: next :: rest) =
        parseFlagsAndArgs (setFlag flags arg "true") pos (next :: rest)) ∧
    (∀ flags pos arg, strStarts arg "--" = true → charIn arg '=' = false →
      parseFlagsAndArgs flags pos [arg] = parseFlagsAndArgs (setFlag flags arg "true") pos []) ∧
    lookupFlag (parseFlagsAndArgs [] [] ["--name=foo"]).1 "--name" = "foo" ∧
    lookupFlag (parseFlagsAndArgs [] [] ["--name", "foo"]).1 "--name" = "foo" ∧
    lookupFlag (parseFlagsAndArgs [] [] ["--name", "--other"]).1 "--name" = "true" := by
  refine ⟨?_, ?_, ?_, ?_, by decide, by decide, by decide⟩
  · intro flags pos arg rest h1 h2
    rw [parseFlagsAndArgs.eq_def]
    simp [h1, h2]
  · intro flags pos arg next rest h1 h2 h3
    rw [parseFlagsAndArgs.eq_def]
    simp [h1, h2, h3]
  · intro flags pos arg next rest h1 h2 h3
    rw [parseFlagsAndArgs.eq_def]
    simp [h1, h2, h3]
  · intro flags pos arg h1 h2
    rw [parseFlagsAndArgs.eq_def]
    simp [h1, h2]

theorem claim4_long_flag_tokenization_witness :
    parseFlagsAndArgs [] [] ["--name=foo"] =
      parseFlagsAndArgs (setFlag [] (splitOnceEq "--name=foo").1 (splitOnceEq "--name=foo").2) [] [] :=
  claim4_long_flag_tokenization.1 [] [] "--name=foo" [] (by decide) (by decide)

/-- C5: a token starting with a single dash and longer than two bytes is a
compact cluster: it expands to one boolean flag per character, each set to
the literal "true", and never consumes the following token; plus the
concrete expansion of the claim. -/
theorem claim5_compact_cluster :
    (∀ flags pos arg rest, strStarts arg "-" = true → strStarts arg "--" = false →
      arg.utf8ByteSize > 2 →
      parseFlagsAndArgs flags pos (arg :: rest) =
        parseFlagsAndArgs (expandCompact flags arg) pos rest) ∧
    parseFlagsAndArgs [] [] ["-abc"] =
      ([("-a", "true"), ("-b", "true"), ("-c", "true")], []) := by
  refine ⟨?_, by decide⟩
  intro flags pos arg rest h1 h2 h3
  have h4 : (arg.utf8ByteSize == 2) = false := by
    simp only [beq_eq_false_iff_ne]
    omega
  have h5 : arg.utf8ByteSize > 1 := by omega
  rw [parseFlagsAndArgs.eq_def]
  simp [h1, h2, h4, h5]

theorem claim5_compact_cluster_witness :
    parseFlagsAndArgs [] [] ["-abc"] = parseFlagsAndArgs (expandCompact [] "-abc") [] [] :=
  claim5_compact_cluster.1 [] [] "-abc" [] (by decide) (by decide) (by decide)

/-- C9: with a non-nil root and a vector free of the help tokens, resolution
always succeeds: the walk starts at the root, which is a valid fallback, so
the unknown-command error branch is unreachable. -/
theorem claim9_no_unknown_command (argv : List String) (r : Command) (st : Settings)
    (h1 : "--help" ∉ argv) (h2 : "-h" ∉ argv) :
    ∃ p, ParseArgs argv (some r) st = Except.ok p := by
  have hc : (contains argv "--help" || contains argv "-h") = false := by
    rw [contains_eq_false_of_not_mem h1, contains_eq_false_of_not_mem h2]
    rfl
  unfold ParseArgs
  rw [hc]
  exact ⟨_, rfl⟩

theorem claim9_no_unknown_command_witness :
    ∃ p, ParseArgs ["deploy", "x"] srcOutCmd ⟨"", ""⟩ = Except.ok p :=
  claim9_no_unknown_command ["deploy", "x"] srcOutCmd ⟨"", ""⟩ (by decide) (by decide)

/-- C10: the validator treats an empty-string parsed flag value exactly like
an absent one: adding an explicit empty-string entry for a key whose lookup
was already empty never changes the verdict; concretely, a required out flag
given as an empty value (long form, or both long and short forms) still
fails with the missing-required-flag error and exit code 2, not with the
allowed-values error. -/
theorem claim10_empty_flag_value :
    (∀ cmd p k, lookupFlag p.flags k = "" →
      ValidateParsed cmd { p with flags := setFlag p.flags k "" } = ValidateParsed cmd p) ∧
    ValidateParsed srcOutCmd (mkParsed [("--out", "")] ["src"]) =
      { valid := false, errorMsg := "missing required flag: --out", exitCode := 2 } ∧
    ValidateParsed shortFlagCmd (mkParsed [("--out", ""), ("-o", "")] []) =
      { valid := false, errorMsg := "missing required flag: --out", exitCode := 2 } := by
  refine ⟨?_, by decide, by decide⟩
  intro cmd p k h
  apply validateParsed_congr
  · rfl
  · intro k2
    show lookupFlag (setFlag p.flags k "") k2 = lookupFlag p.flags k2
    rw [lookupFlag_setFlag]
    by_cases hk : k2 = k
    · rw [if_pos hk, hk, h]
    · rw [if_neg hk]

theorem claim10_empty_flag_value_witness :
    ValidateParsed srcOutCmd { mkParsed [] ["src"] with flags := setFlag [] "--out" "" } =
      ValidateParsed srcOutCmd (mkParsed [] ["src"]) :=
  claim10_empty_flag_value.1 srcOutCmd (mkParsed [] ["src"]) "--out" (by decide)

/-! ### Lenient declaration parsing (C8) -/

/-- The list a declaration value contributes: its elements when it is
list-shaped, nothing otherwise (spec-side view for comparison). -/
def extractList : Option CVal → List CVal
  | some (CVal.list l) => l
  | _ => []

/-- Spec-side view of one args entry: dropped unless it is a mapping with a
non-empty name. -/
def argOfEntry : CVal → Option Arg
  | CVal.cmap m =>
    if (asString (getKey m "name")).1 == "" then none
    else some ⟨(asString (getKey m "name")).1, (asBool (getKey m "required")).1⟩
  | _ => none

/-- Spec-side view of one flags entry: dropped unless it is a mapping. -/
def flagOfEntry : CVal → Option Flag
  | CVal.cmap m =>
    some { long := (asString (getKey m "long")).1, short := (asString (getKey m "short")).1,
           required := (asBool (getKey m "required")).1,
           allowed :=
             (match getKey m "allowed" with
              | some (CVal.list arr) =>
                arr.filterMap (fun a => match a with | CVal.str s => some s | _ => none)
              | _ => []),
           priv := (asBool (getKey m "private")).1 }
  | _ => none

/-- Spec-side view of one environment variable entry: dropped unless it is
a mapping with a non-empty name. -/
def envVarOfEntry : CVal → Option EnvVar
  | CVal.cmap m =>
    if (asString (getKey m "name")).1 == "" then none
    else some ⟨(asString (getKey m "name")).1, (asBool (getKey m "private")).1⟩
  | _ => none

def isListShaped : CVal → Bool
  | CVal.list _ => true
  | _ => false

def isMapShaped : CVal → Bool
  | CVal.cmap _ => true
  | _ => false

theorem parseArgsList_eq_filterMap (l : List CVal) :
    parseArgsList l = l.filterMap argOfEntry := by
  induction l with
  | nil => rfl
  | cons raw rest ih =>
    cases raw with
    | cmap m =>
      by_cases h : ((asString (getKey m "name")).1 == "") = true
      · simp [parseArgsList, argOfEntry, h, ih]
      · simp only [Bool.not_eq_true] at h
        simp [parseArgsList, argOfEntry, h, ih]
    | str s => simp [parseArgsList, argOfEntry, ih]
    | boolVal b => simp [parseArgsList, argOfEntry, ih]
    | list xs => simp [parseArgsList, argOfEntry, ih]
    | null => simp [parseArgsList, argOfEntry, ih]

theorem parseFlagsList_eq_filterMap (l : List CVal) :
    parseFlagsList l = l.filterMap flagOfEntry := by
  induction l with
  | nil => rfl
  | cons raw rest ih =>
    cases raw with
    | cmap m => simp [parseFlagsList, flagOfEntry, ih]
    | str s => simp [parseFlagsList, flagOfEntry, ih]
    | boolVal b => simp [parseFlagsList, flagOfEntry, ih]
    | list xs => simp [parseFlagsList, flagOfEntry, ih]
    | null => simp [parseFlagsList, flagOfEntry, ih]

theorem parseEnvVarsList_eq_filterMap (l : List CVal) :
    parseEnvVarsList l = l.filterMap envVarOfEntry := by
  induction l with
  | nil => rfl
  | cons raw rest ih =>
    cases raw with
    | cmap m =>
      by_cases h : ((asString (getKey m "name")).1 == "") = true
      · simp [parseEnvVarsList, envVarOfEntry, h, ih]
      · simp only [Bool.not_eq_true] at h
        simp [parseEnvVarsList, envVarOfEntry, h, ih]
    | str s => simp [parseEnvVarsList, envVarOfEntry, ih]
    | boolVal b => simp [parseEnvVarsList, envVarOfEntry, ih]
    | list xs => simp [parseEnvVarsList, envVarOfEntry, ih]
    | null => simp [parseEnvVarsList, envVarOfEntry, ih]

/-- C8: declaration parsing is total and lenient - the parsers return plain
lists and can never fail the build. Each parsed list is the filterMap of
the authored list (so malformed entries are simply dropped and the result
is at most as long as authored); a non-list declaration value yields the
empty list; non-mapping entries are skipped; args and env-var entries with
an absent or empty name are skipped. -/
theorem claim8_lenient_declarations :
    (∀ v, parseArgs v = (extractList v).filterMap argOfEntry) ∧
    (∀ v, parseFlags v = (extractList v).filterMap flagOfEntry) ∧
    (∀ v, parseEnvVars v = (extractList v).filterMap envVarOfEntry) ∧
    (∀ v, (parseArgs v).length ≤ (extractList v).length ∧
          (parseFlags v).length ≤ (extractList v).length ∧
          (parseEnvVars v).length ≤ (extractList v).length) ∧
    (∀ v, isListShaped v = false →
      parseArgs (some v) = [] ∧ parseFlags (some v) = [] ∧ parseEnvVars (some v) = []) ∧
    (∀ raw rest, isMapShaped raw = false →
      parseArgsList (raw :: rest) = parseArgsList rest ∧
      parseFlagsList (raw :: rest) = parseFlagsList rest ∧
      parseEnvVarsList (raw :: rest) = parseEnvVarsList rest) ∧
    (∀ m rest, (asString (getKey m "name")).1 = "" →
      parseArgsList (CVal.cmap m :: rest) = parseArgsList rest ∧
      parseEnvVarsList (CVal.cmap m :: rest) = parseEnvVarsList rest) := by
  have ha : ∀ v, parseArgs v = (extractList v).filterMap argOfEntry := by
    intro v
    match v with
    | some (CVal.list l) => exact parseArgsList_eq_filterMap l
    | some (CVal.str s) => rfl
    | some (CVal.boolVal b) => rfl
    | some (CVal.cmap m) => rfl
    | some CVal.null => rfl
    | none => rfl
  have hf : ∀ v, parseFlags v = (extractList v).filterMap flagOfEntry := by
    intro v
    match v with
    | some (CVal.list l) => exact parseFlagsList_eq_filterMap l
    | some (CVal.str s) => rfl
    | some (CVal.boolVal b) => rfl
    | some (CVal.cmap m) => rfl
    | some CVal.null => rfl
    | none => rfl
  have he : ∀ v, parseEnvVars v = (extractList v).filterMap envVarOfEntry := by
    intro v
    match v with
    | some (CVal.list l) => exact parseEnvVarsList_eq_filterMap l
    | some (CVal.str s) => rfl
    | some (CVal.boolVal b) => rfl
    | some (CVal.cmap m) => rfl
    | some CVal.null => rfl
    | none => rfl
  refine ⟨ha, hf, he, ?_, ?_, ?_, ?_⟩
  · intro v
    rw [ha, hf, he]
    exact ⟨List.length_filterMap_le _ _, List.length_filterMap_le _ _,
      List.length_filterMap_le _ _⟩
  · intro v hv
    cases v with
    | list xs => simp [isListShaped] at hv
    | str s => exact ⟨rfl, rfl, rfl⟩
    | boolVal b => exact ⟨rfl, rfl, rfl⟩
    | cmap m => exact ⟨rfl, rfl, rfl⟩
    | null => exact ⟨rfl, rfl, rfl⟩
  · intro raw rest hraw
    cases raw with
    | cmap m => simp [isMapShaped] at hraw
    | str s => exact ⟨rfl, rfl, rfl⟩
    | boolVal b => exact ⟨rfl, rfl, rfl⟩
    | list xs => exact ⟨rfl, rfl, rfl⟩
    | null => exact ⟨rfl, rfl, rfl⟩
  · intro m rest hname
    have hb : ((asString (getKey m "name")).1 == "") = true := by simpa using hname
    constructor
    · simp [parseArgsList, hb]
    · simp [parseEnvVarsList, hb]

theorem claim8_lenient_declarations_witness :
    (parseArgs (some (CVal.str "nope")) = [] ∧ parseFlags (some (CVal.str "nope")) = [] ∧
      parseEnvVars (some (CVal.str "nope")) = []) ∧
    (parseArgsList [CVal.boolVal true, CVal.cmap [("name", CVal.str "a")]] =
      parseArgsList [CVal.cmap [("name", CVal.str "a")]]) ∧
    (parseArgsList [CVal.cmap [("required", CVal.boolVal true)]] = parseArgsList []) :=
  ⟨claim8_lenient_declarations.2.2.2.2.1 (CVal.str "nope") (by decide),
   (claim8_lenient_declarations.2.2.2.2.2.1 (CVal.boolVal true)
      [CVal.cmap [("name", CVal.str "a")]] (by decide)).1,
   (claim8_lenient_declarations.2.2.2.2.2.2 [("required", CVal.boolVal true)] [] (by decide)).1⟩

/-! ### Structural-defect predicate and C7 -/

/-!
A configuration commands structure is defective when, at any nesting
level, a child entry is not mapping-shaped, a child entry lacks a
non-empty name, or a nested commands value is not list-shaped. The three
functions mirror buildEntries / buildEntry / buildSubCommands;
subDefect_eq_getKey relates the walk to the Go map lookup.
-/
mutual

def listDefect : List CVal → Bool
  | [] => false
  | raw :: rest => entryDefect raw || listDefect rest
termination_by structural l => l

def entryDefect : CVal → Bool
  | CVal.cmap opts =>
    if (asString (getKey opts "name")).1 == "" then true
    else subDefect opts
  | _ => true
termination_by structural raw => raw

def subDefect : List (String × CVal) → Bool
  | [] => false
  | (k, v) :: rest =>
    if k == "commands" then
      match v with
      | CVal.list sub => listDefect sub
      | _ => true
    else subDefect rest
termination_by structural opts => opts

end

/-- subDefect is the defect of the looked-up commands value. -/
theorem subDefect_eq_getKey (opts : List (String × CVal)) :
    subDefect opts =
      (match getKey opts "commands" with
       | none => false
       | some (CVal.list sub) => listDefect sub
       | some _ => true) := by
  induction opts with
  | nil => rfl
  | cons x rest ih =>
    match x with
    | (k, v) =>
      by_cases hk : (k == "commands") = true
      · have hk2 : k = "commands" := by simpa using hk
        subst hk2
        cases v <;> rfl
      · simp only [Bool.not_eq_true] at hk
        cases v <;> simp only [subDefect, getKey, hk, Bool.false_eq_true, if_false, ih]

/-- Any defect in the commands structure makes the corresponding build
function fail, at every loop index, parent and settings (induction on a
size bound; the three parts mirror the three build functions). -/
theorem defect_errors_aux :
    ∀ n : Nat,
      (∀ l : List CVal, sizeOf l ≤ n → listDefect l = true →
        ∀ i parent st, ∃ e, buildEntries i l parent st = Except.error e) ∧
      (∀ raw : CVal, sizeOf raw ≤ n → entryDefect raw = true →
        ∀ i parent st, ∃ e, buildEntry i raw parent st = Except.error e) ∧
      (∀ opts : List (String × CVal), sizeOf opts ≤ n → subDefect opts = true →
        ∀ fullName cmd0 st, ∃ e, buildSubCommands opts fullName cmd0 st = Except.error e) := by
  intro n
  induction n with
  | zero =>
    refine ⟨?_, ?_, ?_⟩
    · intro l hsz
      exfalso
      cases l <;> simp at hsz
    · intro raw hsz
      exfalso
      cases raw <;> simp at hsz
    · intro opts hsz
      exfalso
      cases opts <;> simp at hsz
  | succ n ih =>
    obtain ⟨ihl, ihe, ihs⟩ := ih
    refine ⟨?_, ?_, ?_⟩
    · intro l hsz hdef i parent st
      match l with
      | [] => simp [listDefect] at hdef
      | raw :: rest =>
        have hs1 : sizeOf raw ≤ n := by simp at hsz; omega
        have hs2 : sizeOf rest ≤ n := by simp at hsz; omega
        rw [listDefect] at hdef
        rcases (by simpa using hdef : entryDefect raw = true ∨ listDefect rest = true) with hd | hd
        · obtain ⟨e, he⟩ := ihe raw hs1 hd i parent st
          exact ⟨e, by rw [buildEntries, he]⟩
        · obtain ⟨e, he⟩ := ihl rest hs2 hd (i + 1) parent st
          cases hb : buildEntry i raw parent st with
          | error e2 => exact ⟨e2, by rw [buildEntries, hb]⟩
          | ok cmd => exact ⟨e, by rw [buildEntries, hb, he]⟩
    · intro raw hsz hdef i parent st
      match raw with
      | CVal.cmap opts =>
        have hso : sizeOf opts ≤ n := by simp at hsz; omega
        rw [entryDefect] at hdef
        by_cases hname : ((asString (getKey opts "name")).1 == "") = true
        · exact ⟨_, by rw [buildEntry, if_pos hname]⟩
        · rw [if_neg hname] at hdef
          obtain ⟨e, he⟩ := ihs opts hso hdef (childCommand opts parent st).fullName
            (childCommand opts parent st) st
          exact ⟨e, by rw [buildEntry, if_neg hname]; simp [he]⟩
      | CVal.str s =>
        exact ⟨"commands[" ++ toString i ++ "] must be a mapping", by simp [buildEntry]⟩
      | CVal.boolVal b =>
        exact ⟨"commands[" ++ toString i ++ "] must be a mapping", by simp [buildEntry]⟩
      | CVal.list xs =>
        exact ⟨"commands[" ++ toString i ++ "] must be a mapping", by simp [buildEntry]⟩
      | CVal.null =>
        exact ⟨"commands[" ++ toString i ++ "] must be a mapping", by simp [buildEntry]⟩
    · intro opts hsz hdef fullName cmd0 st
      match opts with
      | [] => simp [subDefect] at hdef
      | (k, v) :: rest =>
        have hsv : sizeOf v ≤ n := by simp at hsz; omega
        have hsr : sizeOf rest ≤ n := by simp at hsz; omega
        by_cases hk : (k == "commands") = true
        · cases v with
          | list sub =>
            rw [subDefect, if_pos hk] at hdef
            have hss : sizeOf sub ≤ n := by simp at hsv; omega
            obtain ⟨e, he⟩ := ihl sub hss hdef 0 cmd0 st
            exact ⟨e, by rw [buildSubCommands, if_pos hk, he]⟩
          | str s =>
            exact ⟨fullName ++ ".commands must be a list", by simp [buildSubCommands, hk]⟩
          | boolVal b =>
            exact ⟨fullName ++ ".commands must be a list", by simp [buildSubCommands, hk]⟩
          | cmap m =>
            exact ⟨fullName ++ ".commands must be a list", by simp [buildSubCommands, hk]⟩
          | null =>
            exact ⟨fullName ++ ".commands must be a list", by simp [buildSubCommands, hk]⟩
        · simp only [Bool.not_eq_true] at hk
          cases v <;>
            (simp only [subDefect, hk, Bool.false_eq_true, if_false] at hdef
             obtain ⟨e, he⟩ := ihs rest hsr hdef fullName cmd0 st
             exact ⟨e, by simp [buildSubCommands, hk, he]⟩)

/-- Shape check for a present top-level commands value: defective when it
is not list-shaped or its list has a nested structural defect. -/
def commandsValDefective : CVal → Bool
  | CVal.list l => listDefect l
  | _ => true

/-- C7: a structural defect anywhere in the commands structure (a commands
value that is not list-shaped, a child entry that is not mapping-shaped,
or a child entry without a non-empty name) aborts the whole build with an
error - an Except.error carries no tree, so no partial tree can be
returned - and the missing-name error identifies the offending index, as
the concrete second conjunct shows for index 1. -/
theorem claim7_structural_errors_abort :
    (∀ cfg st v, getKey cfg "commands" = some v → commandsValDefective v = true →
      ∃ e, BuildFromConfigMap cfg st = Except.error e) ∧
    buildChildren [CVal.cmap [("name", CVal.str "ok")], CVal.cmap [("private", CVal.boolVal true)]]
        (Command.mk "cli" [] "cli" "root" false "" [] "" "" [] [] [] []) ⟨"", ""⟩ =
      Except.error "commands[1].name is required" := by
  constructor
  · intro cfg st v hg hdef
    cases v with
    | list l =>
      rw [commandsValDefective] at hdef
      obtain ⟨e, he⟩ := (defect_errors_aux (sizeOf l)).1 l (le_refl _) hdef 0
        (rootCommand cfg st) st
      refine ⟨e, ?_⟩
      rw [BuildFromConfigMap_eq, hg]
      simp [buildChildren, he]
    | str s => exact ⟨_, by rw [BuildFromConfigMap_eq, hg]⟩
    | boolVal b => exact ⟨_, by rw [BuildFromConfigMap_eq, hg]⟩
    | cmap m => exact ⟨_, by rw [BuildFromConfigMap_eq, hg]⟩
    | null => exact ⟨_, by rw [BuildFromConfigMap_eq, hg]⟩
  · rfl

theorem claim7_structural_errors_abort_witness :
    ∃ e, BuildFromConfigMap [("commands", CVal.boolVal true)] ⟨"", ""⟩ = Except.error e :=
  claim7_structural_errors_abort.1 [("commands", CVal.boolVal true)] ⟨"", ""⟩
    (CVal.boolVal true) (by rfl) (by rfl)

/-! ### Action-name chain invariant and C6 -/

/-- Chain invariant for a forest of commands built under a parent with
chain ps and name n: every command's parents are ps plus n, its actionName
is computeActionName of its own (parents, name), and the same holds
recursively for its children. -/
inductive ChainsFrom : List String → String → List Command → Prop where
  | nil (ps : List String) (n : String) : ChainsFrom ps n []
  | cons (ps : List String) (n : String) (c : Command) (rest : List Command)
      (hp : c.parents = ps ++ [n])
      (ha : c.actionName = computeActionName c.parents c.name)
      (hsub : ChainsFrom c.parents c.name c.commands)
      (hrest : ChainsFrom ps n rest) : ChainsFrom ps n (c :: rest)

theorem chainsFrom_mem {ps : List String} {n : String} {l : List Command}
    (h : ChainsFrom ps n l) :
    ∀ c ∈ l, c.parents = ps ++ [n] ∧ c.actionName = computeActionName c.parents c.name ∧
      ChainsFrom c.parents c.name c.commands := by
  induction h with
  | nil ps n =>
    intro c hc
    simp at hc
  | cons ps n c rest hp ha hsub hrest ihsub ihrest =>
    intro d hd
    rcases List.mem_cons.mp hd with rfl | hd2
    · exact ⟨hp, ha, hsub⟩
    · exact ihrest d hd2

theorem computeActionName_single (x nm : String) : computeActionName [x] nm = nm := rfl

theorem computeActionName_pair (a b nm : String) :
    computeActionName [a, b] nm = b ++ " " ++ nm := rfl

theorem computeActionName_join (ps : List String) (nm : String) (h : 2 ≤ ps.length) :
    computeActionName ps nm = joinStrings " " (ps.drop 1 ++ [nm]) := by
  match ps with
  | [] => simp at h
  | [x] => simp at h
  | a :: b :: t => rfl

/-- Every successful build establishes the chain invariant (induction on a
size bound; the three parts mirror the three build functions). -/
theorem build_chain_aux :
    ∀ n : Nat,
      (∀ l i parent st out, sizeOf l ≤ n → buildEntries i l parent st = Except.ok out →
        ChainsFrom parent.parents parent.name out) ∧
      (∀ raw i parent st cmd, sizeOf raw ≤ n → buildEntry i raw parent st = Except.ok cmd →
        cmd.parents = parent.parents ++ [parent.name] ∧
        cmd.actionName = computeActionName cmd.parents cmd.name ∧
        ChainsFrom cmd.parents cmd.name cmd.commands) ∧
      (∀ opts fullName cmd0 st res, sizeOf opts ≤ n →
        buildSubCommands opts fullName cmd0 st = Except.ok res →
        ∀ children, res = some children → ChainsFrom cmd0.parents cmd0.name children) := by
  intro n
  induction n with
  | zero =>
    refine ⟨?_, ?_, ?_⟩
    · intro l i parent st out hsz
      exfalso
      cases l <;> simp at hsz
    · intro raw i parent st cmd hsz
      exfalso
      cases raw <;> simp at hsz
    · intro opts fullName cmd0 st res hsz
      exfalso
      cases opts <;> simp at hsz
  | succ n ih =>
    obtain ⟨ihl, ihe, ihs⟩ := ih
    refine ⟨?_, ?_, ?_⟩
    · intro l i parent st out hsz hok
      match l with
      | [] =>
        rw [buildEntries] at hok
        cases hok
        exact ChainsFrom.nil _ _
      | raw :: rest =>
        have hs1 : sizeOf raw ≤ n := by simp at hsz; omega
        have hs2 : sizeOf rest ≤ n := by simp at hsz; omega
        rw [buildEntries] at hok
        cases hb : buildEntry i raw parent st with
        | error e => simp [hb] at hok
        | ok cmd =>
          simp only [hb] at hok
          cases hr : buildEntries (i + 1) rest parent st with
          | error e => simp [hr] at hok
          | ok out2 =>
            simp only [hr] at hok
            cases hok
            obtain ⟨hp, ha, hsub⟩ := ihe raw i parent st cmd hs1 hb
            exact ChainsFrom.cons _ _ _ _ hp ha hsub (ihl rest (i + 1) parent st out2 hs2 hr)
    · intro raw i parent st cmd hsz hok
      match raw with
      | CVal.cmap opts =>
        have hso : sizeOf opts ≤ n := by simp at hsz; omega
        rw [buildEntry] at hok
        by_cases hname : ((asString (getKey opts "name")).1 == "") = true
        · rw [if_pos hname] at hok
          simp at hok
        · rw [if_neg hname] at hok
          cases hs : buildSubCommands opts (childCommand opts parent st).fullName
              (childCommand opts parent st) st with
          | error e => simp [hs] at hok
          | ok r =>
            match r with
            | none =>
              simp only [hs] at hok
              cases hok
              exact ⟨rfl, rfl, ChainsFrom.nil _ _⟩
            | some children =>
              simp only [hs] at hok
              cases hok
              have h3 := ihs opts (childCommand opts parent st).fullName
                (childCommand opts parent st) st (some children) hso hs children rfl
              exact ⟨rfl, rfl, h3⟩
      | CVal.str s => simp [buildEntry] at hok
      | CVal.boolVal b => simp [buildEntry] at hok
      | CVal.list xs => simp [buildEntry] at hok
      | CVal.null => simp [buildEntry] at hok
    · intro opts fullName cmd0 st res hsz hok
      match opts with
      | [] =>
        rw [buildSubCommands] at hok
        cases hok
        intro children hc
        exact absurd hc (by simp)
      | (k, v) :: rest =>
        have hsv : sizeOf v ≤ n := by simp at hsz; omega
        have hsr : sizeOf rest ≤ n := by simp at hsz; omega
        by_cases hk : (k == "commands") = true
        · cases v with
          | list sub =>
            have hss : sizeOf sub ≤ n := by simp at hsv; omega
            rw [buildSubCommands, if_pos hk] at hok
            cases hbe : buildEntries 0 sub cmd0 st with
            | error e => simp [hbe] at hok
            | ok children2 =>
              simp only [hbe] at hok
              cases hok
              intro children hc
              cases hc
              exact ihl sub 0 cmd0 st children2 hss hbe
          | str s => simp [buildSubCommands, hk] at hok
          | boolVal b => simp [buildSubCommands, hk] at hok
          | cmap m => simp [buildSubCommands, hk] at hok
          | null => simp [buildSubCommands, hk] at hok
        · simp only [Bool.not_eq_true] at hk
          cases v <;>
            (simp only [buildSubCommands, hk, Bool.false_eq_true, if_false] at hok
             exact ihs rest fullName cmd0 st res hsr hok)

/-- C6: in every built tree the root's actionName is the literal root, the
chain invariant holds for the whole forest, a direct child of root has its
own name as actionName, a grandchild with parents root and c has
actionName c-space-g, and in general a chain of length at least two gives
the space-joined chain minus its first element plus the name. -/
theorem claim6_action_names (cfg : List (String × CVal)) (st : Settings) (root : Command)
    (h : BuildFromConfigMap cfg st = Except.ok root) :
    root.actionName = "root" ∧
    ChainsFrom [] root.name root.commands ∧
    (∀ c ∈ root.commands, c.parents = [root.name] ∧ c.actionName = c.name) ∧
    (∀ c ∈ root.commands, ∀ g ∈ c.commands,
      g.parents = [root.name, c.name] ∧ g.actionName = c.name ++ " " ++ g.name) ∧
    (∀ ps nm, 2 ≤ ps.length → computeActionName ps nm = joinStrings " " (ps.drop 1 ++ [nm])) := by
  rw [BuildFromConfigMap_eq] at h
  cases hg : getKey cfg "commands" with
  | none =>
    rw [hg] at h
    have h2 : Except.ok (rootCommand cfg st) = Except.ok root := h
    cases h2
    refine ⟨rfl, ChainsFrom.nil _ _, ?_, ?_, fun ps nm hlen => computeActionName_join ps nm hlen⟩
    · intro c hc
      have hc2 : c ∈ ([] : List Command) := hc
      simp at hc2
    · intro c hc
      have hc2 : c ∈ ([] : List Command) := hc
      simp at hc2
  | some v =>
    rw [hg] at h
    cases v with
    | list l =>
      cases hb : buildChildren l (rootCommand cfg st) st with
      | error e => simp [hb] at h
      | ok children =>
        simp only [hb] at h
        cases h
        have hch : ChainsFrom [] ((rootCommand cfg st).withCommands children).name children := by
          have hc := (build_chain_aux (sizeOf l)).1 l 0 (rootCommand cfg st) st children
            (le_refl _) (by simpa [buildChildren] using hb)
          exact hc
        refine ⟨rfl, hch, ?_, ?_, fun ps nm hlen => computeActionName_join ps nm hlen⟩
        · intro c hc
          obtain ⟨hp, ha, _⟩ := chainsFrom_mem hch c hc
          have hp2 : c.parents = [((rootCommand cfg st).withCommands children).name] := by
            simpa using hp
          refine ⟨hp2, ?_⟩
          rw [ha, hp2, computeActionName_single]
        · intro c hc g hg2
          obtain ⟨hp, ha, hsub⟩ := chainsFrom_mem hch c hc
          obtain ⟨hp2, ha2, _⟩ := chainsFrom_mem hsub g hg2
          have hp' : c.parents = [((rootCommand cfg st).withCommands children).name] := by
            simpa using hp
          have hgp : g.parents =
              [((rootCommand cfg st).withCommands children).name, c.name] := by
            rw [hp2, hp']
            rfl
          refine ⟨hgp, ?_⟩
          rw [ha2, hgp, computeActionName_pair]
    | str s => simp at h
    | boolVal b => simp at h
    | cmap m => simp at h
    | null => simp at h

/-- Demo fixtures: a two-level configuration and the tree it builds. -/
def demoG : Command :=
  Command.mk "g" ["mycli", "c"] "mycli c g" "c g" false "" ["g"] "c_g_command.sh" "" [] [] [] []

def demoC : Command :=
  Command.mk "c" ["mycli"] "mycli c" "c" false "" ["c"] "c_command.sh" "" [] [] [] [demoG]

def demoRoot : Command :=
  Command.mk "mycli" [] "mycli" "root" false "" [] "root_command.sh" "" [] [] [] [demoC]

def demoCfg : List (String × CVal) :=
  [("name", CVal.str "mycli"),
   ("commands", CVal.list [CVal.cmap [("name", CVal.str "c"),
      ("commands", CVal.list [CVal.cmap [("name", CVal.str "g")]])]])]

theorem claim6_action_names_witness :
    demoRoot.actionName = "root" ∧
    ChainsFrom [] demoRoot.name demoRoot.commands ∧
    (∀ c ∈ demoRoot.commands, c.parents = [demoRoot.name] ∧ c.actionName = c.name) ∧
    (∀ c ∈ demoRoot.commands, ∀ g ∈ c.commands,
      g.parents = [demoRoot.name, c.name] ∧ g.actionName = c.name ++ " " ++ g.name) ∧
    (∀ ps nm, 2 ≤ ps.length → computeActionName ps nm = joinStrings " " (ps.drop 1 ++ [nm])) :=
  claim6_action_names demoCfg ⟨"", ""⟩ demoRoot (by rfl)

end GoBashly
